import Mathlib

/-!
Verification of the RHOAI-Konflux-Automation manifest reconciliation engine.

The Python sources are embedded shallowly:
* Python `str` values are modelled as `List Char` (`Str`), so that Python's
  `in`, `replace`, `split`, `startswith`/`endswith` and lexicographic
  comparison operators can be given exact executable counterparts.
* Python dicts that are used as records (image entries, tags, labels) are
  modelled as structures; dicts used as mappings are association lists in
  insertion order.
* `sys.exit(1)` error paths are modelled as error results; an uncaught
  Python exception (IndexError on a malformed image reference) is `none`.
* The Quay.io network service (`controller/quay_controller.py`) is modelled
  as an abstract oracle `QuayService`: each method becomes a function field
  whose result is the parsed JSON payload the Python code consumes.
-/

/-- Python strings are modelled as lists of characters. -/
abbrev Str := List Char

/-! ## Basic string operations (Python `str` methods) -/

/-- Python `pat in s`: `pat` occurs as a contiguous substring of `s`.
`occurs [] s` is `true`, as in Python. -/
def occurs (pat : Str) : Str → Bool
  | [] => pat.isEmpty
  | c :: cs => pat.isPrefixOf (c :: cs) || occurs pat cs

/-- Fuel-driven worker for `replaceAll`; the fuel is an upper bound on the
length of the string being scanned, so the recursion is structural and the
function evaluates by kernel reduction. -/
def replaceAllFuel (pat repl : Str) : Nat → Str → Str
  | _, [] => []
  | 0, s => s
  | fuel + 1, c :: cs =>
    if pat ≠ [] ∧ pat.isPrefixOf (c :: cs) then
      repl ++ replaceAllFuel pat repl fuel ((c :: cs).drop pat.length)
    else
      c :: replaceAllFuel pat repl fuel cs

/-- Python `s.replace(pat, repl)` for a non-empty pattern: replace every
non-overlapping occurrence, scanning left to right.  (For `pat = []` this
returns `s` unchanged; the sources never call `replace` with an empty
pattern.) -/
def replaceAll (pat repl s : Str) : Str :=
  replaceAllFuel pat repl s.length s

/-- Python `s.split(ch, 1)` combined with the `ch in s` test: returns the
text before the first occurrence of `ch`, and `some` tail after it when
`ch` occurs, `none` otherwise. -/
def splitFirstAt (ch : Char) : Str → Str × Option Str
  | [] => ([], none)
  | c :: cs =>
    if c = ch then ([], some cs)
    else
      let r := splitFirstAt ch cs
      (c :: r.1, r.2)

/-- Python `s.split(ch)` (split on every occurrence; `"".split(ch) = [""]`). -/
def splitOnChar (ch : Char) : Str → List Str
  | [] => [[]]
  | c :: cs =>
    let r := splitOnChar ch cs
    if c = ch then [] :: r
    else
      match r with
      | [] => [[c]]
      | h :: t => (c :: h) :: t

/-- Python `ch.join(parts)` for a one-character separator. -/
def joinWith (ch : Char) : List Str → Str
  | [] => []
  | [x] => x
  | x :: xs => x ++ ch :: joinWith ch xs

/-- Python lexicographic `<` on strings (by character code). -/
def strLtB : Str → Str → Bool
  | [], [] => false
  | [], _ :: _ => true
  | _ :: _, [] => false
  | a :: as, b :: bs => if a < b then true else if a = b then strLtB as bs else false

/-- Python `s.lower()` (the sources only compare ASCII operation names). -/
def toLowerStr (s : Str) : Str := s.map Char.toLower

/-! ## `utils/util.py`: `parse_image_value` -/

/-- The `-rhel8` platform suffix. -/
def RHEL8_SUFFIX : Str := "-rhel8".data

/-- The `-rhel9` platform suffix. -/
def RHEL9_SUFFIX : Str := "-rhel9".data

/-- The component-name derivation inside `parse_image_value`
(`util.py` lines 106-110): when `repo` ends with `-rhel8` or `-rhel9`,
apply `repo.replace('-rhel8', '').replace('-rhel9', '')`, otherwise keep
`repo` unchanged. -/
def derive_component_name (repo : Str) : Str :=
  if RHEL8_SUFFIX.isSuffixOf repo || RHEL9_SUFFIX.isSuffixOf repo then
    replaceAll RHEL9_SUFFIX [] (replaceAll RHEL8_SUFFIX [] repo)
  else repo

/-- Result record of `parse_image_value`. -/
structure ParsedImage where
  registry : Str
  org : Str
  repo : Str
  component_name : Str
  digest : Option Str
deriving DecidableEq

/-- `util.parse_image_value` (`util.py` lines 85-118): split off the digest
at the first `@`, split the base on `/`, take the first segment as
registry, the second as org, the rest joined by `/` as repo.  Returns
`none` when fewer than two `/`-separated segments exist, modelling the
Python `IndexError` on `parts[1]`. -/
def parse_image_value (image_value : Str) : Option ParsedImage :=
  let bd := splitFirstAt '@' image_value
  let parts := splitOnChar '/' bd.1
  match parts with
  | [] => none
  | [_] => none
  | registry :: org :: rest =>
    let repo := joinWith '/' rest
    some ⟨registry, org, repo, derive_component_name repo, bd.2⟩

/-! ## `validators/catalog_validator.py`: the `rhods_operator` comparator -/

/-- The literal prefix stripped by the comparator. -/
def OPERATOR_NAME_DOT : Str := "rhods-operator.".data

/-- `catalog_validator.rhods_operator.__ge__` (`catalog_validator.py` lines
16-19): strip the `rhods-operator.` prefix, split on `.`, and compare the
components (which are Python strings, hence compared lexicographically):
`True if s0 > o0 else ((True if s1 > o1 else (s2 >= o2 if s1 == o1 else
False)) if s0 == o0 else False)`.  Out-of-range subscripts cannot occur for
the three-component versions this development evaluates it on. -/
def rhods_operator_ge (self other : Str) : Bool :=
  let s := splitOnChar '.' (replaceAll OPERATOR_NAME_DOT [] self)
  let o := splitOnChar '.' (replaceAll OPERATOR_NAME_DOT [] other)
  if strLtB (o.getD 0 []) (s.getD 0 []) then true
  else if s.getD 0 [] = o.getD 0 [] then
    if strLtB (o.getD 1 []) (s.getD 1 []) then true
    else if s.getD 1 [] = o.getD 1 [] then strLtB (s.getD 2 []) (o.getD 2 []) = false
    else false
  else false

/-! ## Lemmas about the string primitives -/

theorem isPrefixOf_true {p s : Str} : p.isPrefixOf s = true ↔ p <+: s :=
  List.isPrefixOf_iff_prefix

theorem isSuffixOf_true {p s : Str} : p.isSuffixOf s = true ↔ p <:+ s :=
  List.isSuffixOf_iff_suffix

theorem occurs_nil_pat (s : Str) : occurs [] s = true := by
  cases s <;> simp [occurs, List.isPrefixOf]

theorem occurs_of_prefix {p s : Str} (h : p <+: s) : occurs p s = true := by
  cases s with
  | nil =>
    have hp : p = [] := List.prefix_nil.mp h
    subst hp; rfl
  | cons c cs =>
    have hb : p.isPrefixOf (c :: cs) = true := isPrefixOf_true.mpr h
    simp [occurs, hb]

theorem occurs_of_suffix {p s : Str} (h : p <:+ s) : occurs p s = true := by
  induction s with
  | nil =>
    have hp : p = [] := List.suffix_nil.mp h
    subst hp; rfl
  | cons c cs ih =>
    rcases List.suffix_cons_iff.mp h with h1 | h2
    · exact occurs_of_prefix (h1 ▸ List.prefix_rfl)
    · simp [occurs, ih h2]

theorem occurs_append_of_left {p s t : Str} (h : occurs p s = true) :
    occurs p (s ++ t) = true := by
  induction s with
  | nil =>
    have hp : p = [] := by simpa [occurs, List.isEmpty_iff] using h
    subst hp; exact occurs_nil_pat _
  | cons c cs ih =>
    rw [List.cons_append]
    have h' : p <+: c :: cs ∨ occurs p cs = true := by simpa [occurs] using h
    rcases h' with h1 | h1
    · exact occurs_of_prefix (h1.trans (List.prefix_append _ _))
    · simp [occurs, ih h1]

theorem occurs_false_of_append_left {p s t : Str} (h : occurs p (s ++ t) = false) :
    occurs p s = false := by
  cases ho : occurs p s with
  | false => rfl
  | true => rw [occurs_append_of_left ho] at h; exact absurd h (by simp)

theorem prefix_take_of_append {p s t : Str} (h : p <+: s ++ t)
    (hle : p.length ≤ s.length) : p <+: s := by
  have h1 : p = (s ++ t).take p.length := List.prefix_iff_eq_take.mp h
  rw [List.take_append_eq_append_take, Nat.sub_eq_zero_of_le hle, List.take_zero,
    List.append_nil] at h1
  exact h1 ▸ List.take_prefix _ _

theorem append_pat_long {p s t : Str} (h : p <+: s ++ t) (hlt : s.length < p.length) :
    p.take s.length = s ∧ p.drop s.length <+: t := by
  obtain ⟨r, hr⟩ := h
  have hp : p = p.take s.length ++ p.drop s.length := (List.take_append_drop _ _).symm
  rw [hp, List.append_assoc] at hr
  have hlen : s.length = (p.take s.length).length := by
    rw [List.length_take]; omega
  obtain ⟨h1, h2⟩ := List.append_inj hr hlen.symm
  exact ⟨h1, ⟨r, h2⟩⟩

theorem not_prefixOf_append {pat : Str} {c : Char} {cs t : Str}
    (hnp : pat.isPrefixOf (c :: cs) = false)
    (hcross : ∀ k, k < pat.length → 0 < k → ¬ (pat.drop k <+: t)) :
    pat.isPrefixOf ((c :: cs) ++ t) = false := by
  cases hp : pat.isPrefixOf ((c :: cs) ++ t) with
  | false => rfl
  | true =>
    exfalso
    have hpre := isPrefixOf_true.mp hp
    by_cases hle : pat.length ≤ (c :: cs).length
    · have := isPrefixOf_true.mpr (prefix_take_of_append hpre hle)
      rw [hnp] at this; exact absurd this (by simp)
    · have hlt : (c :: cs).length < pat.length := by omega
      obtain ⟨-, h2⟩ := append_pat_long hpre hlt
      exact hcross (c :: cs).length hlt (by simp) h2

theorem occurs_append_false {pat s t : Str}
    (hs : occurs pat s = false) (ht : occurs pat t = false)
    (hcross : ∀ k, k < pat.length → 0 < k → ¬ (pat.drop k <+: t)) :
    occurs pat (s ++ t) = false := by
  induction s with
  | nil => simpa using ht
  | cons c cs ih =>
    obtain ⟨h1, h2⟩ := Bool.or_eq_false_iff.mp (by simpa [occurs] using hs)
    have hnp2 : pat.isPrefixOf ((c :: cs) ++ t) = false := not_prefixOf_append h1 hcross
    rw [List.cons_append] at hnp2 ⊢
    simp [occurs, hnp2, ih h2]

theorem replaceAllFuel_of_occurs_false {pat repl : Str} :
    ∀ fuel (s : Str), occurs pat s = false → replaceAllFuel pat repl fuel s = s := by
  intro fuel
  induction fuel with
  | zero => intro s _; cases s <;> rfl
  | succ n ih =>
    intro s hs
    cases s with
    | nil => rfl
    | cons c cs =>
      obtain ⟨h1, h2⟩ := Bool.or_eq_false_iff.mp (by simpa [occurs] using hs)
      rw [replaceAllFuel, if_neg (fun hc => by rw [h1] at hc; exact absurd hc.2 (by simp))]
      rw [ih cs h2]

theorem replaceAll_of_occurs_false {pat repl s : Str} (h : occurs pat s = false) :
    replaceAll pat repl s = s :=
  replaceAllFuel_of_occurs_false _ s h

theorem replaceAllFuel_append_pat {pat repl : Str} (hpat : pat ≠ [])
    (hnb : ∀ k, k < pat.length → 0 < k → ¬ (pat.drop k <+: pat)) :
    ∀ fuel (s : Str), (s ++ pat).length ≤ fuel → occurs pat s = false →
      replaceAllFuel pat repl fuel (s ++ pat) = s ++ repl := by
  intro fuel
  induction fuel with
  | zero =>
    intro s hlen _
    exfalso
    have : pat.length = 0 := by
      have := List.length_append s pat ▸ hlen
      omega
    exact hpat (List.length_eq_zero.mp this)
  | succ n ih =>
    intro s hlen hs
    cases s with
    | nil =>
      cases pat with
      | nil => exact absurd rfl hpat
      | cons p ps =>
        have hpre : (p :: ps).isPrefixOf (p :: ps) = true :=
          isPrefixOf_true.mpr List.prefix_rfl
        show replaceAllFuel (p :: ps) repl (n + 1) ([] ++ (p :: ps)) = [] ++ repl
        rw [List.nil_append, List.nil_append]
        rw [replaceAllFuel, if_pos ⟨List.cons_ne_nil p ps, hpre⟩]
        have hd : (p :: ps).drop (p :: ps).length = ([] : Str) := List.drop_length _
        rw [hd]
        simp [replaceAllFuel]
    | cons c cs =>
      obtain ⟨h1, h2⟩ := Bool.or_eq_false_iff.mp (by simpa [occurs] using hs)
      have hnp2 : pat.isPrefixOf ((c :: cs) ++ pat) = false := not_prefixOf_append h1 hnb
      rw [List.cons_append] at hnp2 ⊢
      rw [replaceAllFuel, if_neg (fun hc => by rw [hnp2] at hc; exact absurd hc.2 (by simp))]
      show c :: replaceAllFuel pat repl n (cs ++ pat) = c :: (cs ++ repl)
      congr 1
      exact ih cs (by simp at hlen ⊢; omega) h2

theorem replaceAll_append_pat {pat repl s : Str} (hpat : pat ≠ [])
    (hnb : ∀ k, k < pat.length → 0 < k → ¬ (pat.drop k <+: pat))
    (hs : occurs pat s = false) :
    replaceAll pat repl (s ++ pat) = s ++ repl :=
  replaceAllFuel_append_pat hpat hnb _ s le_rfl hs

/-! ## Claim C2: the CatalogVersion comparator at the flagged pair -/

/-- C2: the claim states `rhods-operator.2.10.0 >= rhods-operator.2.9.5` must
hold, i.e. that the comparator treats the dot-separated components
numerically.  Evaluating the comparator embedded from
`catalog_validator.rhods_operator.__ge__` at exactly this pair returns
`false`: the components are Python strings and `'10' > '9'` is a
lexicographic comparison in which `'1' < '9'`.  The code therefore
contradicts the claim (and the spec flags this very comparison as a latent
bug in §9), so this is a bug in the code, exhibited here. -/
theorem C2_comparator_flagged_pair_is_false :
    rhods_operator_ge "rhods-operator.2.10.0".data "rhods-operator.2.9.5".data = false := by
  decide

/-! ## Claim C3: the component-name derivation -/

/-- C3 counterexample: for the image reference `r/o/a-rhel8-rhel9` the claim
says `componentName` is the repo path with exactly one trailing platform
suffix removed (`a-rhel8`), but the code removes every occurrence of
`-rhel8` and `-rhel9`, producing `a`. -/
theorem C3_counterexample :
    (parse_image_value "r/o/a-rhel8-rhel9".data).map ParsedImage.component_name
      = some "a".data ∧ "a".data ≠ "a-rhel8".data := by
  decide

/-- C3 (amended): for repo paths in which `-rhel8` and `-rhel9` occur only
as the single trailing suffix (no other occurrence anywhere in the path),
the derivation strips exactly that one trailing suffix, leaves suffix-free
paths unchanged, and is idempotent on such inputs.  (The unrestricted claim
fails: see the counterexample, where interior occurrences are removed as
well.) -/
theorem C3_component_name_amended (s : Str)
    (h8 : occurs RHEL8_SUFFIX s = false) (h9 : occurs RHEL9_SUFFIX s = false) :
    derive_component_name (s ++ RHEL8_SUFFIX) = s ∧
    derive_component_name (s ++ RHEL9_SUFFIX) = s ∧
    derive_component_name s = s ∧
    derive_component_name (derive_component_name (s ++ RHEL8_SUFFIX)) =
      derive_component_name (s ++ RHEL8_SUFFIX) ∧
    derive_component_name (derive_component_name (s ++ RHEL9_SUFFIX)) =
      derive_component_name (s ++ RHEL9_SUFFIX) := by
  have hnb8 : ∀ k, k < RHEL8_SUFFIX.length → 0 < k →
      ¬ (RHEL8_SUFFIX.drop k <+: RHEL8_SUFFIX) := by decide
  have hnb9 : ∀ k, k < RHEL9_SUFFIX.length → 0 < k →
      ¬ (RHEL9_SUFFIX.drop k <+: RHEL9_SUFFIX) := by decide
  have hcross89 : ∀ k, k < RHEL8_SUFFIX.length → 0 < k →
      ¬ (RHEL8_SUFFIX.drop k <+: RHEL9_SUFFIX) := by decide
  have hne8 : RHEL8_SUFFIX ≠ [] := by decide
  have hne9 : RHEL9_SUFFIX ≠ [] := by decide
  have h89 : occurs RHEL8_SUFFIX RHEL9_SUFFIX = false := by decide
  have c3 : derive_component_name s = s := by
    unfold derive_component_name
    rw [if_neg]
    intro hc
    rcases Bool.or_eq_true_iff.mp hc with h | h
    · rw [occurs_of_suffix (isSuffixOf_true.mp h)] at h8; exact absurd h8 (by simp)
    · rw [occurs_of_suffix (isSuffixOf_true.mp h)] at h9; exact absurd h9 (by simp)
  have c1 : derive_component_name (s ++ RHEL8_SUFFIX) = s := by
    unfold derive_component_name
    rw [if_pos]
    · rw [replaceAll_append_pat hne8 hnb8 h8, List.append_nil,
        replaceAll_of_occurs_false h9]
    · rw [isSuffixOf_true.mpr (List.suffix_append s RHEL8_SUFFIX)]; simp
  have c2 : derive_component_name (s ++ RHEL9_SUFFIX) = s := by
    unfold derive_component_name
    rw [if_pos]
    · rw [replaceAll_of_occurs_false (occurs_append_false h8 h89 hcross89),
        replaceAll_append_pat hne9 hnb9 h9, List.append_nil]
    · rw [isSuffixOf_true.mpr (List.suffix_append s RHEL9_SUFFIX)]; simp
  exact ⟨c1, c2, c3, by rw [c1, c3], by rw [c2, c3]⟩

/-- C3 witness: the amended theorem applied at the concrete repo path
`odh-dashboard`, whose platform-suffixed forms strip back to it. -/
theorem C3_witness :
    occurs RHEL8_SUFFIX "odh-dashboard".data = false ∧
    occurs RHEL9_SUFFIX "odh-dashboard".data = false ∧
    derive_component_name ("odh-dashboard".data ++ RHEL8_SUFFIX) = "odh-dashboard".data ∧
    derive_component_name (derive_component_name ("odh-dashboard".data ++ RHEL8_SUFFIX)) =
      derive_component_name ("odh-dashboard".data ++ RHEL8_SUFFIX) :=
  ⟨by decide, by decide,
    (C3_component_name_amended "odh-dashboard".data (by decide) (by decide)).1,
    (C3_component_name_amended "odh-dashboard".data (by decide) (by decide)).2.2.2.1⟩

/-! ## Claim C4: the image-reference parse -/

theorem splitFirstAt_not_mem {ch : Char} {base : Str} (h : ch ∉ base) :
    splitFirstAt ch base = (base, none) := by
  induction base with
  | nil => rfl
  | cons c cs ih =>
    have hc : ¬ (c = ch) := fun e => h (by rw [← e]; exact List.mem_cons_self c cs)
    simp only [splitFirstAt, if_neg hc]
    rw [ih (fun hm => h (List.mem_cons_of_mem c hm))]

theorem splitFirstAt_append {ch : Char} {base rest : Str} (h : ch ∉ base) :
    splitFirstAt ch (base ++ ch :: rest) = (base, some rest) := by
  induction base with
  | nil => simp [splitFirstAt]
  | cons c cs ih =>
    have hc : ¬ (c = ch) := fun e => h (by rw [← e]; exact List.mem_cons_self c cs)
    rw [List.cons_append]
    simp only [splitFirstAt, if_neg hc]
    rw [ih (fun hm => h (List.mem_cons_of_mem c hm))]

/-- C4 counterexample: for the value `r/o/p@d1@d2`, which contains two `@`,
the claim says the digest is the text after the final `@` (that would be
`d2`); the code splits at the *first* `@` and records `d1@d2`. -/
theorem C4_counterexample :
    parse_image_value "r/o/p@d1@d2".data
      = some ⟨"r".data, "o".data, "p".data, "p".data, some "d1@d2".data⟩ ∧
    ("d1@d2".data : Str) ≠ "d2".data := by
  decide

/-- C4 (amended): parsing splits on the *first* `@` — for a value
containing more than one `@`, the digest is all the text after the first
`@` (so it may itself contain `@`); the base before the `@` is split on
`/`, the first segment being the registry, the second the org, and the
remaining segments joined by `/` the repo path.  A value with no `@` parses
the same way with no digest. -/
theorem C4_parse_first_at_amended (base rest registry org : Str) (rp : List Str)
    (hb : '@' ∉ base)
    (hparts : splitOnChar '/' base = registry :: org :: rp) :
    parse_image_value (base ++ '@' :: rest)
      = some ⟨registry, org, joinWith '/' rp,
          derive_component_name (joinWith '/' rp), some rest⟩ ∧
    parse_image_value base
      = some ⟨registry, org, joinWith '/' rp,
          derive_component_name (joinWith '/' rp), none⟩ := by
  constructor
  · simp only [parse_image_value, splitFirstAt_append hb, hparts]
  · simp only [parse_image_value, splitFirstAt_not_mem hb, hparts]

/-- C4 witness: the amended theorem applied at `quay.io/org/repo` with a
digest part that itself contains an `@`. -/
theorem C4_witness :
    ('@' ∉ "quay.io/org/repo".data) ∧
    splitOnChar '/' "quay.io/org/repo".data
      = "quay.io".data :: "org".data :: ["repo".data] ∧
    parse_image_value ("quay.io/org/repo".data ++ '@' :: "sha256:a@b".data)
      = some ⟨"quay.io".data, "org".data, joinWith '/' ["repo".data],
          derive_component_name (joinWith '/' ["repo".data]), some "sha256:a@b".data⟩ :=
  ⟨by decide, by decide,
    (C4_parse_first_at_amended "quay.io/org/repo".data "sha256:a@b".data
      "quay.io".data "org".data ["repo".data] (by decide) (by decide)).1⟩

/-! ## Image entries and `utils/util.py`: `apply_registry_and_repo_replacements` -/

/-- An image entry dict `{'name': ..., 'value': ...}` as used throughout the
processors. -/
structure ImageEntry where
  name : Str
  value : Str
deriving DecidableEq

/-- The per-entry value rewrite performed by
`apply_registry_and_repo_replacements` (`util.py` lines 511-522): when the
value is non-empty, sequentially apply
`value.replace(f'{source_registry}/{source_repo}@', f'{target_registry}/{target_repo}@')`
for every repo-mapping pair in insertion order. -/
def apply_value_replacements (source_registry target_registry : Str)
    (repo_mappings : List (Str × Str)) (value : Str) : Str :=
  if value ≠ [] then
    repo_mappings.foldl
      (fun v pr =>
        replaceAll (source_registry ++ '/' :: pr.1 ++ ['@'])
          (target_registry ++ '/' :: pr.2 ++ ['@']) v)
      value
  else value

/-- `util.apply_registry_and_repo_replacements` (`util.py` lines 461-523):
validates that the registry mapping has exactly one entry (raising
`ValueError` otherwise, modelled as `Except.error`), then rewrites each
entry's `value` in place.  The in-place mutation is modelled by returning
the updated list. -/
def apply_registry_and_repo_replacements (image_entries : List ImageEntry)
    (registry_mapping : List (Str × Str)) (repo_mappings : List (Str × Str)) :
    Except Str (List ImageEntry) :=
  match registry_mapping with
  | [(source_registry, target_registry)] =>
    .ok (image_entries.map (fun e =>
      { e with value := (apply_value_replacements source_registry target_registry
          repo_mappings e.value) }))
  | _ => .error ("registry_mapping must have exactly one entry".data)

/-! ## Claim C8: mapping-cardinality error -/

/-- C8: the remap operation fails with a configuration error if and only if
the registry mapping does not contain exactly one source-to-target pair;
with exactly one pair it never raises. -/
theorem C8_registry_mapping_cardinality (image_entries : List ImageEntry)
    (registry_mapping repo_mappings : List (Str × Str)) :
    (∃ msg, apply_registry_and_repo_replacements image_entries registry_mapping
        repo_mappings = .error msg)
      ↔ registry_mapping.length ≠ 1 := by
  match registry_mapping with
  | [] => simp [apply_registry_and_repo_replacements]
  | [(sr, tr)] => simp [apply_registry_and_repo_replacements]
  | (a, b) :: (c, d) :: t => simp [apply_registry_and_repo_replacements]

/-! ## Claim C5: prefix versus substring matching in the remap -/

/-- C5 counterexample: the entry value `xquay.io/a/b@s` does *not* start
with `quay.io/a/b@`, yet the remap changes it, because the Python code uses
`str.replace`, which substitutes the pattern anywhere in the string — so
the claim that replacement applies only to exact prefixes is false. -/
theorem C5_counterexample :
    apply_registry_and_repo_replacements
        [⟨"N".data, "xquay.io/a/b@s".data⟩]
        [("quay.io".data, "reg.example".data)]
        [("a/b".data, "c/d".data)]
      = .ok [⟨"N".data, "xreg.example/c/d@s".data⟩] ∧
    ("quay.io/a/b@".data).isPrefixOf "xquay.io/a/b@s".data = false ∧
    ("xreg.example/c/d@s".data : Str) ≠ "xquay.io/a/b@s".data :=
  ⟨rfl, by decide, by decide⟩

theorem apply_value_replacements_no_occurrence {sr tr : Str}
    {repo_mappings : List (Str × Str)} {v : Str}
    (h : ∀ pr ∈ repo_mappings, occurs (sr ++ '/' :: pr.1 ++ ['@']) v = false) :
    apply_value_replacements sr tr repo_mappings v = v := by
  unfold apply_value_replacements
  have hfold : ∀ (rp : List (Str × Str)),
      (∀ pr ∈ rp, occurs (sr ++ '/' :: pr.1 ++ ['@']) v = false) →
      rp.foldl (fun w pr =>
        replaceAll (sr ++ '/' :: pr.1 ++ ['@']) (tr ++ '/' :: pr.2 ++ ['@']) w) v = v := by
    intro rp
    induction rp with
    | nil => intro _; rfl
    | cons pr prs ih =>
      intro hh
      rw [List.foldl_cons,
        replaceAll_of_occurs_false (hh pr (List.mem_cons_self pr prs))]
      exact ih (fun q hq => hh q (List.mem_cons_of_mem pr hq))
  split
  · exact hfold repo_mappings h
  · rfl

/-- C5 (amended): the remap is a no-op on an entry whose value contains no
occurrence of `sourceRegistry/mappedRepo@` *anywhere* in the string; the
match is a Python `str.replace` substring match, not an exact-prefix match
(a match away from the start of the value is replaced as well — see the
counterexample). -/
theorem C5_remap_no_occurrence_noop (sr tr : Str)
    (repo_mappings : List (Str × Str)) (e : ImageEntry)
    (h : ∀ pr ∈ repo_mappings, occurs (sr ++ '/' :: pr.1 ++ ['@']) e.value = false) :
    apply_registry_and_repo_replacements [e] [(sr, tr)] repo_mappings = .ok [e] := by
  have hred : apply_registry_and_repo_replacements [e] [(sr, tr)] repo_mappings
      = .ok [{ e with value := (apply_value_replacements sr tr repo_mappings e.value) }] :=
    rfl
  rw [hred, apply_value_replacements_no_occurrence h]

/-- C5 witness: a value hosted on a different registry is untouched. -/
theorem C5_witness :
    (∀ pr ∈ [("a/b".data, "c/d".data)],
      occurs ("quay.io".data ++ '/' :: pr.1 ++ ['@'])
        ("other.io/a/b@sha".data : Str) = false) ∧
    apply_registry_and_repo_replacements
        [⟨"N".data, "other.io/a/b@sha".data⟩]
        [("quay.io".data, "reg.example".data)]
        [("a/b".data, "c/d".data)]
      = .ok [⟨"N".data, "other.io/a/b@sha".data⟩] :=
  ⟨by decide,
    C5_remap_no_occurrence_noop "quay.io".data "reg.example".data
      [("a/b".data, "c/d".data)] ⟨"N".data, "other.io/a/b@sha".data⟩ (by decide)⟩

/-! ## Claim C10: the remap only rewrites `value` -/

/-- C10: the remap mutates only the `value` field of each entry: it
preserves the length and order of the list, every entry keeps its `name`
(its only other field), and an entry whose value is the empty string keeps
its value unchanged. -/
theorem C10_remap_frame (image_entries : List ImageEntry)
    (registry_mapping repo_mappings : List (Str × Str)) (out : List ImageEntry)
    (h : apply_registry_and_repo_replacements image_entries registry_mapping
        repo_mappings = .ok out) :
    out.length = image_entries.length ∧
    ∀ i (hi : i < out.length) (hi2 : i < image_entries.length),
      (out.get ⟨i, hi⟩).name = (image_entries.get ⟨i, hi2⟩).name ∧
      ((image_entries.get ⟨i, hi2⟩).value = [] →
        (out.get ⟨i, hi⟩).value = (image_entries.get ⟨i, hi2⟩).value) := by
  match registry_mapping with
  | [] => exact absurd h (by simp [apply_registry_and_repo_replacements])
  | (a, b) :: (c, d) :: t =>
    exact absurd h (by simp [apply_registry_and_repo_replacements])
  | [(sr, tr)] =>
    have hout : out = image_entries.map (fun e =>
        { e with value := apply_value_replacements sr tr repo_mappings e.value }) := by
      simpa [apply_registry_and_repo_replacements] using h.symm
    subst hout
    refine ⟨List.length_map _ _, ?_⟩
    intro i hi hi2
    rw [List.get_eq_getElem, List.get_eq_getElem, List.getElem_map]
    refine ⟨rfl, ?_⟩
    intro hv
    simp only [apply_value_replacements, hv]
    simp

/-! ## `utils/util.py`: `process_push_pipeline` (the pipeline gate) -/

/-- The sentinel file name `non-existent-file.non-existent-ext`
(`util.py` line 336). -/
def DISABLE_EXT : Str := "non-existent-file.non-existent-ext".data

/-- The always-false guard clause prepended to the CEL expression
(`util.py` line 337). -/
def DISABLE_EXPR : Str := "\"non-existent-file.non-existent-ext\".pathChanged() && ".data

/-- `util.process_push_pipeline` (`util.py` lines 301-360), restricted to
the one field the function reads and writes: the
`pipelinesascode.tekton.dev/on-cel-expression` annotation value.  Returns
the `(is_updated, new_expression)` pair.  Enabling removes the guard when
the sentinel occurs in the expression; disabling prepends the guard when
the sentinel does not occur; otherwise nothing changes. -/
def process_push_pipeline (on_cel_expression operation : Str) : Bool × Str :=
  if toLowerStr operation = "enable".data ∧ occurs DISABLE_EXT on_cel_expression = true then
    (true, replaceAll DISABLE_EXPR [] on_cel_expression)
  else if toLowerStr operation = "disable".data ∧
      occurs DISABLE_EXT on_cel_expression = false then
    (true, DISABLE_EXPR ++ on_cel_expression)
  else
    (false, on_cel_expression)

theorem process_push_pipeline_disable_noop {cel : Str}
    (h : occurs DISABLE_EXT cel = true) :
    process_push_pipeline cel "disable".data = (false, cel) := by
  unfold process_push_pipeline
  rw [if_neg (fun hc => absurd hc.1 (by decide)),
    if_neg (fun hc => by rw [h] at hc; exact absurd hc.2 (by simp))]

theorem process_push_pipeline_enable_noop {cel : Str}
    (h : occurs DISABLE_EXT cel = false) :
    process_push_pipeline cel "enable".data = (false, cel) := by
  unfold process_push_pipeline
  rw [if_neg (fun hc => by rw [h] at hc; exact absurd hc.2 (by simp)),
    if_neg (fun hc => absurd hc.1 (by decide))]

/-! ## Claim C7: the gate toggle is idempotent -/

/-- C7: applying Disable to the result of Disable reports `changed = false`
with the expression unchanged; toggling an already-enabled expression
(sentinel absent) with Enable, or an already-disabled one (sentinel
present) with Disable, returns `changed = false` and the original string. -/
theorem C7_pipeline_gate_idempotent (cel : Str) :
    process_push_pipeline (process_push_pipeline cel "disable".data).2 "disable".data
      = (false, (process_push_pipeline cel "disable".data).2) ∧
    (occurs DISABLE_EXT cel = false →
      process_push_pipeline cel "enable".data = (false, cel)) ∧
    (occurs DISABLE_EXT cel = true →
      process_push_pipeline cel "disable".data = (false, cel)) := by
  refine ⟨?_, fun h => process_push_pipeline_enable_noop h,
    fun h => process_push_pipeline_disable_noop h⟩
  cases hocc : occurs DISABLE_EXT cel with
  | true =>
    rw [process_push_pipeline_disable_noop hocc]
    exact process_push_pipeline_disable_noop hocc
  | false =>
    have hstep : process_push_pipeline cel "disable".data
        = (true, DISABLE_EXPR ++ cel) := by
      unfold process_push_pipeline
      rw [if_neg (fun hc => absurd hc.1 (by decide)), if_pos ⟨by decide, hocc⟩]
    rw [hstep]
    exact process_push_pipeline_disable_noop
      (occurs_append_of_left (by decide : occurs DISABLE_EXT DISABLE_EXPR = true))

/-- C7 witness: the idempotence theorem applied at a concrete enabled
expression and at a concrete disabled expression. -/
theorem C7_witness :
    (occurs DISABLE_EXT "event == push".data = false ∧
      process_push_pipeline "event == push".data "enable".data
        = (false, "event == push".data)) ∧
    (occurs DISABLE_EXT (DISABLE_EXPR ++ "event == push".data) = true ∧
      process_push_pipeline (DISABLE_EXPR ++ "event == push".data) "disable".data
        = (false, DISABLE_EXPR ++ "event == push".data)) :=
  ⟨⟨by decide, (C7_pipeline_gate_idempotent "event == push".data).2.1 (by decide)⟩,
   ⟨by decide,
     (C7_pipeline_gate_idempotent (DISABLE_EXPR ++ "event == push".data)).2.2 (by decide)⟩⟩

/-! ## `utils/util.py`: `deduplicate_and_sort`, `filter_image_entries`,
and `operator-processor.py`: `sync_yamls_from_bundle_patch` -/

/-- First-occurrence deduplication by `name` (`util.py` lines 61-69): a
Python dict keyed by `entry['name']` keeps the first entry seen for each
name, in insertion order; `seen` is the list of names already taken. -/
def dedup_first_by_name : List ImageEntry → List Str → List ImageEntry
  | [], _ => []
  | e :: rest, seen =>
    if e.name ∈ seen then dedup_first_by_name rest seen
    else e :: dedup_first_by_name rest (e.name :: seen)

/-- Insert an entry into a name-sorted list, keeping Python's stable sort
order (`sorted(seen.keys())` compares strings lexicographically). -/
def insert_by_name (e : ImageEntry) : List ImageEntry → List ImageEntry
  | [] => [e]
  | x :: xs => if strLtB x.name e.name then x :: insert_by_name e xs else e :: x :: xs

/-- Insertion sort of entries by their `name` key. -/
def sort_by_name : List ImageEntry → List ImageEntry
  | [] => []
  | x :: xs => insert_by_name x (sort_by_name xs)

/-- `util.deduplicate_and_sort` (`util.py` lines 39-82) with the default
`key='name'` and `sort=True` used by the operator processor: deduplicate
keeping the first occurrence for each name, then sort alphabetically by
name. -/
def deduplicate_and_sort (entries : List ImageEntry) : List ImageEntry :=
  sort_by_name (dedup_first_by_name entries [])

/-- The exclude branch of `util.filter_image_entries` (`util.py` lines
157-168): drop every entry whose name contains any of the patterns as a
substring (Python `pattern in entry['name']`). -/
def filter_image_entries_exclude (entries : List ImageEntry)
    (patterns : List Str) : List ImageEntry :=
  entries.filter (fun e => !(patterns.any (fun pt => occurs pt e.name)))

/-- Modelled from the spec: the external dependency `jsonupdate_ng.updateJson`
is not part of this repository's sources, so the keyed list merge it
performs at a path governed by `listPatchScheme` (spec §4.5) is modelled
from the spec's words, specialised to flat `{name, value}` entries: a
source element whose name matches a target element is merged into it
(its scalar `value` overwrites the target's), a source element with no
match is appended, and target elements with no matching source element are
preserved unchanged. -/
def keyed_list_merge (target source : List ImageEntry) : List ImageEntry :=
  (target.map (fun t =>
    match source.find? (fun s => s.name == t.name) with
    | some s => ⟨t.name, s.value⟩
    | none => t)) ++
  source.filter (fun s => (target.find? (fun t => t.name == s.name)).isNone)

/-- The nudging-yaml sync of
`operator_processor.sync_yamls_from_bundle_patch` (`operator-processor.py`
lines 165-218): deduplicate and sort the bundle-patch `relatedImages`,
exclude FBC / BUNDLE / ODH_OPERATOR images, keyed-merge the nudging list on
top of the filtered list, and keep only entries whose name is in the
filtered bundle-patch name set. -/
def sync_nudging_related_images (source_images nudging_images : List ImageEntry) :
    List ImageEntry :=
  let deduplicated := deduplicate_and_sort source_images
  let filtered := filter_image_entries_exclude deduplicated
    ["FBC".data, "BUNDLE".data, "ODH_OPERATOR".data]
  let names := filtered.map (fun e => e.name)
  let merged := keyed_list_merge filtered nudging_images
  merged.filter (fun e => names.contains e.name)

/-! ## Claim C6: sync-and-filter on the spec's example -/

/-- C6: syncing destination `[{name:"a",v:"pinned"},{name:"stale",v:"x"}]`
against authoritative `[{name:"a",v:"new"},{name:"b",v:"new2"}]` yields
`[{name:"a",v:"pinned"},{name:"b",v:"new2"}]`: the destination override for
`a` survives, `stale` is dropped, and `b` is added with its authoritative
value. -/
theorem C6_sync_and_filter_example :
    sync_nudging_related_images
        [⟨"a".data, "new".data⟩, ⟨"b".data, "new2".data⟩]
        [⟨"a".data, "pinned".data⟩, ⟨"stale".data, "x".data⟩]
      = [⟨"a".data, "pinned".data⟩, ⟨"b".data, "new2".data⟩] := by
  decide

/-! ## `utils/util.py`: `fetch_latest_images_and_git_metadata`
with the Quay.io service as an oracle -/

/-- One tag object from the Quay tag listing, restricted to the two fields
the processor reads (`manifest_digest`, `is_manifest_list`). -/
structure QuayTag where
  manifest_digest : Str
  is_manifest_list : Bool
deriving DecidableEq

/-- One label object from the Quay manifest-label endpoint. -/
structure QuayLabel where
  key : Str
  value : Str
deriving DecidableEq

/-- The git metadata recorded per component. -/
structure GitMeta where
  git_url : Str
  git_commit : Str
deriving DecidableEq

/-- Label key `git.url` (`constants/constants.py`). -/
def GIT_URL_LABEL_KEY : Str := "git.url".data

/-- Label key `git.commit` (`constants/constants.py`). -/
def GIT_COMMIT_LABEL_KEY : Str := "git.commit".data

/-- Label key `github.url` (`constants/constants.py`). -/
def GITHUB_URL_LABEL_KEY : Str := "github.url".data

/-- Label key `github.commit` (`constants/constants.py`). -/
def GITHUB_COMMIT_LABEL_KEY : Str := "github.commit".data

/-- The Quay.io registry service (`controller/quay_controller.py`),
modelled as an oracle.  Each field takes the organisation (the controller's
constructor argument) and the repository, mirroring the Python methods:
`get_all_tags org repo image_tag` is the tag list returned for the
symbolic tag; `get_tag_details org repo tag` is the truthiness of the tag
detail returned for `tag` (`quay_controller.get_tag_details` returns an
empty dict, i.e. falsy, when no active tag matches — lines 14-23);
`get_image_manifest_digests org repo digest` is
`get_image_manifest_digests_for_all_the_supported_archs`; and
`get_git_labels org repo digest` is the raw label list. -/
structure QuayService where
  get_all_tags : Str → Str → Str → List QuayTag
  get_tag_details : Str → Str → Str → Bool
  get_image_manifest_digests : Str → Str → Str → List Str
  get_git_labels : Str → Str → Str → List QuayLabel

/-- The companion signature tag name for a manifest digest
(`util.py` line 231): the digest with `:` replaced by `-`, suffixed `.sig`. -/
def sig_tag_name (manifest_digest : Str) : Str :=
  replaceAll [':'] ['-'] manifest_digest ++ ".sig".data

/-- Lookup in the Python dict built by
`{label['key']: label['value'] for label in labels if label['value']}`
(`util.py` line 255) followed by `.get(key, '')`-style access: labels with
empty values are discarded, and for duplicate keys the last occurrence
wins. -/
def label_lookup (labels : List QuayLabel) (key : Str) : Option Str :=
  ((labels.filter (fun l => l.value != ([] : Str))).reverse.find?
    (fun l => l.key == key)).map (fun l => l.value)

/-- What the loop body of `fetch_latest_images_and_git_metadata` contributes
for one entry (`util.py` lines 203-280): possibly a resolved image entry, a
git-map update keyed by component name, a missing-image record, and a
missing-git-labels record (the latter two hold the repo name the Python
code appends). -/
structure EntryStep where
  resolved : Option ImageEntry
  git_entry : Option (Str × GitMeta)
  missing_image : Option Str
  missing_git : Option Str
deriving DecidableEq

/-- The loop body of `fetch_latest_images_and_git_metadata` for one parsed
entry: empty tag list records missing-image; otherwise the first tag whose
signature tag lookup is truthy is selected (`break` at the first match —
`List.find?`); if no tag has a signature, nothing at all is recorded; for
a selected tag the resolved value `registry/org/repo@digest` is produced,
labels are fetched (from the first architecture sub-manifest digest when
the tag is a manifest list and the sub-manifest list is non-empty), the
`github.*` labels override the `git.*` ones when requested, and an empty
resulting url or commit records missing-git-labels. -/
def entry_step (q : QuayService) (image_tag : Str) (use_github_override : Bool)
    (e : ImageEntry) (p : ParsedImage) : EntryStep :=
  let tags := q.get_all_tags p.org p.repo image_tag
  if tags.isEmpty then
    ⟨none, none, some p.repo, none⟩
  else
    match tags.find?
        (fun t => q.get_tag_details p.org p.repo (sig_tag_name t.manifest_digest)) with
    | none => ⟨none, none, none, none⟩
    | some t =>
      let updated : ImageEntry :=
        ⟨e.name, p.registry ++ '/' :: p.org ++ '/' :: p.repo ++ '@' :: t.manifest_digest⟩
      let manifest_digest :=
        if t.is_manifest_list then
          match q.get_image_manifest_digests p.org p.repo t.manifest_digest with
          | [] => t.manifest_digest
          | d :: _ => d
        else t.manifest_digest
      let labels := q.get_git_labels p.org p.repo manifest_digest
      let git_url :=
        if use_github_override then
          match label_lookup labels GITHUB_URL_LABEL_KEY with
          | some u => u
          | none => (label_lookup labels GIT_URL_LABEL_KEY).getD []
        else (label_lookup labels GIT_URL_LABEL_KEY).getD []
      let git_commit :=
        if use_github_override then
          match label_lookup labels GITHUB_COMMIT_LABEL_KEY with
          | some c => c
          | none => (label_lookup labels GIT_COMMIT_LABEL_KEY).getD []
        else (label_lookup labels GIT_COMMIT_LABEL_KEY).getD []
      ⟨some updated, some (p.component_name, ⟨git_url, git_commit⟩), none,
        if git_url = [] ∨ git_commit = [] then some p.repo else none⟩

/-- Python dict assignment `m[k] = v`: overwrite in place when the key
exists, append otherwise. -/
def map_update (m : List (Str × GitMeta)) (k : Str) (v : GitMeta) :
    List (Str × GitMeta) :=
  if m.any (fun kv => kv.1 == k) then
    m.map (fun kv => if kv.1 == k then (k, v) else kv)
  else m ++ [(k, v)]

/-- The four accumulators of `fetch_latest_images_and_git_metadata`:
`latest_images`, `git_labels_meta['map']`, `missing_images`,
`missing_git_labels`. -/
structure FetchAccum where
  latest_images : List ImageEntry
  git_map : List (Str × GitMeta)
  missing_images : List Str
  missing_git_labels : List Str
deriving DecidableEq

/-- Apply one entry's contributions to the accumulators, in the order the
loop body appends them. -/
def apply_entry_step (acc : FetchAccum) (st : EntryStep) : FetchAccum :=
  { latest_images := acc.latest_images ++ st.resolved.toList
    git_map :=
      match st.git_entry with
      | none => acc.git_map
      | some kv => map_update acc.git_map kv.1 kv.2
    missing_images := acc.missing_images ++ st.missing_image.toList
    missing_git_labels := acc.missing_git_labels ++ st.missing_git.toList }

/-- The `for image_entry in image_entries` loop: entries are processed
strictly in order; a value on which `parse_image_value` raises aborts the
run (`none`). -/
def process_image_entries (q : QuayService) (image_tag : Str)
    (use_github_override : Bool) : List ImageEntry → FetchAccum → Option FetchAccum
  | [], acc => some acc
  | e :: rest, acc =>
    match parse_image_value e.value with
    | none => none
    | some p =>
      process_image_entries q image_tag use_github_override rest
        (apply_entry_step acc (entry_step q image_tag use_github_override e p))

/-- Result of `fetch_latest_images_and_git_metadata`: either the resolved
entries plus the git map, or one of the two `sys.exit(1)` reports —
missing images checked first (`util.py` lines 283-292). -/
inductive FetchResult where
  | ok (latest_images : List ImageEntry) (git_map : List (Str × GitMeta))
  | missing_images_error (repos : List Str)
  | missing_git_labels_error (repos : List Str)
deriving DecidableEq

/-- `util.fetch_latest_images_and_git_metadata` (`util.py` lines 177-298),
over the Quay oracle `q`.  `none` models an uncaught exception from
`parse_image_value`. -/
def fetch_latest_images_and_git_metadata (q : QuayService)
    (image_entries : List ImageEntry) (image_tag : Str)
    (use_github_override : Bool) : Option FetchResult :=
  (process_image_entries q image_tag use_github_override image_entries
      ⟨[], [], [], []⟩).map
    (fun acc =>
      if acc.missing_images ≠ [] then .missing_images_error acc.missing_images
      else if acc.missing_git_labels ≠ [] then
        .missing_git_labels_error acc.missing_git_labels
      else .ok acc.latest_images acc.git_map)

/-- The step an entry contributes, when its value parses. -/
def entry_step_of (q : QuayService) (image_tag : Str) (ov : Bool)
    (e : ImageEntry) : Option EntryStep :=
  (parse_image_value e.value).map (fun p => entry_step q image_tag ov e p)

/-- The resolved image entry an entry contributes, if any. -/
def entry_resolved_of (q : QuayService) (image_tag : Str) (ov : Bool)
    (e : ImageEntry) : Option ImageEntry :=
  (entry_step_of q image_tag ov e).bind (fun st => st.resolved)

/-- The missing-image record an entry contributes, if any. -/
def entry_missing_image_of (q : QuayService) (image_tag : Str) (ov : Bool)
    (e : ImageEntry) : Option Str :=
  (entry_step_of q image_tag ov e).bind (fun st => st.missing_image)

/-- The missing-git-labels record an entry contributes, if any. -/
def entry_missing_git_of (q : QuayService) (image_tag : Str) (ov : Bool)
    (e : ImageEntry) : Option Str :=
  (entry_step_of q image_tag ov e).bind (fun st => st.missing_git)

theorem filterMap_cons_toList {α β : Type} (f : α → Option β) (a : α) (l : List α) :
    List.filterMap f (a :: l) = (f a).toList ++ List.filterMap f l := by
  cases h : f a <;> simp [List.filterMap_cons, h]

theorem process_image_entries_spec (q : QuayService) (tag : Str) (ov : Bool)
    (entries : List ImageEntry) :
    ∀ acc : FetchAccum,
      (∀ e ∈ entries, (parse_image_value e.value).isSome = true) →
      ∃ g, process_image_entries q tag ov entries acc =
        some ⟨acc.latest_images ++ entries.filterMap (entry_resolved_of q tag ov),
          g,
          acc.missing_images ++ entries.filterMap (entry_missing_image_of q tag ov),
          acc.missing_git_labels ++ entries.filterMap (entry_missing_git_of q tag ov)⟩ := by
  induction entries with
  | nil =>
    intro acc _
    exact ⟨acc.git_map, by simp [process_image_entries]⟩
  | cons e rest ih =>
    intro acc hp
    obtain ⟨p, hpeq⟩ := Option.isSome_iff_exists.mp (hp e (List.mem_cons_self e rest))
    have hrest : ∀ x ∈ rest, (parse_image_value x.value).isSome = true :=
      fun x hx => hp x (List.mem_cons_of_mem e hx)
    obtain ⟨g, hg⟩ := ih (apply_entry_step acc (entry_step q tag ov e p)) hrest
    refine ⟨g, ?_⟩
    have hred : process_image_entries q tag ov (e :: rest) acc
        = process_image_entries q tag ov rest
            (apply_entry_step acc (entry_step q tag ov e p)) := by
      rw [process_image_entries, hpeq]
    rw [hred, hg]
    have hstep : entry_step_of q tag ov e = some (entry_step q tag ov e p) := by
      simp [entry_step_of, hpeq]
    simp [apply_entry_step, filterMap_cons_toList, entry_resolved_of,
      entry_missing_image_of, entry_missing_git_of, hstep, List.append_assoc]

/-! ## Claim C1: collect-then-fail provenance resolution -/

/-- The (amended) batch contract of `fetch_latest_images_and_git_metadata`:
the run terminates normally on parseable entries; it succeeds exactly when
no entry is recorded missing-image or missing-git-labels; when it fails
with the missing-images report that report enumerates every missing-image
component, and when it fails with the missing-git-labels report that
report enumerates every missing-git-labels component; and a successful
return contains the resolved entry of every input entry that produced one
(i.e. whose tag scan selected a signature-verified tag). -/
def C1_prop (q : QuayService) (entries : List ImageEntry) (tag : Str)
    (ov : Bool) : Prop :=
  ∃ r, fetch_latest_images_and_git_metadata q entries tag ov = some r ∧
    ((∃ latest gmap, r = FetchResult.ok latest gmap) ↔
      ∀ e ∈ entries, entry_missing_image_of q tag ov e = none ∧
        entry_missing_git_of q tag ov e = none) ∧
    (∀ repos, r = FetchResult.missing_images_error repos →
      ∀ e ∈ entries, ∀ rp, entry_missing_image_of q tag ov e = some rp →
        rp ∈ repos) ∧
    (∀ repos, r = FetchResult.missing_git_labels_error repos →
      ∀ e ∈ entries, ∀ rp, entry_missing_git_of q tag ov e = some rp →
        rp ∈ repos) ∧
    (∀ latest gmap, r = FetchResult.ok latest gmap →
      ∀ e ∈ entries, ∀ u, entry_resolved_of q tag ov e = some u → u ∈ latest)

/-- C1 (amended): proved form of the batch contract, for every oracle and
every list of entries whose values parse.  (The original claim's final
conjunct — a resolved entry for *every* input entry — fails for an entry
whose tags all lack signatures; see the counterexample.) -/
theorem C1_provenance_batch_amended (q : QuayService) (entries : List ImageEntry)
    (tag : Str) (ov : Bool)
    (hp : ∀ e ∈ entries, (parse_image_value e.value).isSome = true) :
    C1_prop q entries tag ov := by
  obtain ⟨g, hg⟩ := process_image_entries_spec q tag ov entries ⟨[], [], [], []⟩ hp
  simp only [List.nil_append] at hg
  have hMIiff : entries.filterMap (entry_missing_image_of q tag ov) = []
      ↔ ∀ e ∈ entries, entry_missing_image_of q tag ov e = none :=
    List.filterMap_eq_nil_iff
  have hMGiff : entries.filterMap (entry_missing_git_of q tag ov) = []
      ↔ ∀ e ∈ entries, entry_missing_git_of q tag ov e = none :=
    List.filterMap_eq_nil_iff
  have hf : fetch_latest_images_and_git_metadata q entries tag ov
      = some (if entries.filterMap (entry_missing_image_of q tag ov) ≠ [] then
          FetchResult.missing_images_error
            (entries.filterMap (entry_missing_image_of q tag ov))
        else if entries.filterMap (entry_missing_git_of q tag ov) ≠ [] then
          FetchResult.missing_git_labels_error
            (entries.filterMap (entry_missing_git_of q tag ov))
        else FetchResult.ok (entries.filterMap (entry_resolved_of q tag ov)) g) := by
    rw [fetch_latest_images_and_git_metadata, hg]
    rfl
  refine ⟨_, hf, ?_, ?_, ?_, ?_⟩
  · by_cases hmi : entries.filterMap (entry_missing_image_of q tag ov) = []
    · by_cases hmg : entries.filterMap (entry_missing_git_of q tag ov) = []
      · rw [if_neg (by simpa using hmi), if_neg (by simpa using hmg)]
        exact iff_of_true ⟨_, _, rfl⟩
          (fun e he => ⟨hMIiff.mp hmi e he, hMGiff.mp hmg e he⟩)
      · rw [if_neg (by simpa using hmi), if_pos hmg]
        refine iff_of_false ?_ ?_
        · rintro ⟨latest, gmap, hcontra⟩
          exact absurd hcontra (by simp)
        · intro hall
          exact hmg (hMGiff.mpr (fun e he => (hall e he).2))
    · rw [if_pos hmi]
      refine iff_of_false ?_ ?_
      · rintro ⟨latest, gmap, hcontra⟩
        exact absurd hcontra (by simp)
      · intro hall
        exact hmi (hMIiff.mpr (fun e he => (hall e he).1))
  · intro repos hrepos e he rp hrp
    by_cases hmi : entries.filterMap (entry_missing_image_of q tag ov) = []
    · rw [if_neg (by simpa using hmi)] at hrepos
      exfalso
      rw [hMIiff.mp hmi e he] at hrp
      exact Option.noConfusion hrp
    · rw [if_pos hmi, FetchResult.missing_images_error.injEq] at hrepos
      rw [← hrepos]
      exact List.mem_filterMap.mpr ⟨e, he, hrp⟩
  · intro repos hrepos e he rp hrp
    by_cases hmi : entries.filterMap (entry_missing_image_of q tag ov) = []
    · by_cases hmg : entries.filterMap (entry_missing_git_of q tag ov) = []
      · exfalso
        rw [hMGiff.mp hmg e he] at hrp
        exact Option.noConfusion hrp
      · rw [if_neg (by simpa using hmi), if_pos hmg,
          FetchResult.missing_git_labels_error.injEq] at hrepos
        rw [← hrepos]
        exact List.mem_filterMap.mpr ⟨e, he, hrp⟩
    · rw [if_pos hmi] at hrepos
      exact absurd hrepos (by simp)
  · intro latest gmap hok e he u hu
    by_cases hmi : entries.filterMap (entry_missing_image_of q tag ov) = []
    · by_cases hmg : entries.filterMap (entry_missing_git_of q tag ov) = []
      · rw [if_neg (by simpa using hmi), if_neg (by simpa using hmg),
          FetchResult.ok.injEq] at hok
        rw [← hok.1]
        exact List.mem_filterMap.mpr ⟨e, he, hu⟩
      · rw [if_neg (by simpa using hmi), if_pos hmg] at hok
        exact absurd hok (by simp)
    · rw [if_pos hmi] at hok
      exact absurd hok (by simp)

/-- Oracle for the counterexample: repo `ra` has no tags (missing image),
any other repo has one signed tag whose manifest carries no labels
(missing git labels). -/
def quay_mixed_failures : QuayService :=
  ⟨fun _ r _ => if r == "ra".data then [] else [⟨"sha256:d".data, false⟩],
   fun _ _ _ => true, fun _ _ _ => [], fun _ _ _ => []⟩

/-- Oracle under which every repo has exactly one tag and no signature tag
exists for any digest. -/
def quay_unsigned_tags : QuayService :=
  ⟨fun _ _ _ => [⟨"sha256:d".data, false⟩],
   fun _ _ _ => false, fun _ _ _ => [], fun _ _ _ => []⟩

/-- C1 counterexample, two concrete runs.  First: with one missing-image
entry (`ra`) and one missing-git-labels entry (`rb`), the call fails with
the missing-images report `[ra]` only — `rb` is an offending component
that is not enumerated, contradicting "enumerating every offending
component".  Second: with one entry whose only tag has no companion
signature, the call *succeeds* with an empty resolved list, contradicting
"any successful return contains a resolved entry for every input entry". -/
theorem C1_counterexample :
    (fetch_latest_images_and_git_metadata quay_mixed_failures
        [⟨"A".data, "q/o/ra".data⟩, ⟨"B".data, "q/o/rb".data⟩] "t".data false
      = some (FetchResult.missing_images_error ["ra".data]) ∧
     entry_missing_git_of quay_mixed_failures "t".data false ⟨"B".data, "q/o/rb".data⟩
      = some "rb".data ∧
     ("rb".data : Str) ∉ (["ra".data] : List Str)) ∧
    ¬ (∀ latest gmap,
        fetch_latest_images_and_git_metadata quay_unsigned_tags
            [⟨"A".data, "q/o/ra".data⟩] "t".data false
          = some (FetchResult.ok latest gmap) →
        ∃ u ∈ latest, u.name = "A".data) := by
  refine ⟨⟨by decide, by decide, by decide⟩, ?_⟩
  intro h
  obtain ⟨u, hu, -⟩ := h [] [] (by decide)
  exact absurd hu (List.not_mem_nil u)

/-- Oracle for the happy path: one signed manifest-list tag whose first
architecture sub-manifest carries both git labels. -/
def quay_happy_path : QuayService :=
  ⟨fun _ _ _ => [⟨"sha256:d".data, true⟩],
   fun _ _ _ => true, fun _ _ _ => ["sha256:sub".data],
   fun _ _ _ => [⟨"git.url".data, "https://x/y".data⟩,
     ⟨"git.commit".data, "abc".data⟩]⟩

/-- C1 witness: the amended theorem applied to a concrete two-entry batch
that resolves fully under the happy-path oracle. -/
theorem C1_witness :
    (∀ e ∈ ([⟨"A".data, "q/o/foo-rhel9".data⟩, ⟨"B".data, "q/o/bar".data⟩] :
        List ImageEntry), (parse_image_value e.value).isSome = true) ∧
    C1_prop quay_happy_path
      [⟨"A".data, "q/o/foo-rhel9".data⟩, ⟨"B".data, "q/o/bar".data⟩] "t".data false :=
  ⟨by decide,
    C1_provenance_batch_amended quay_happy_path
      [⟨"A".data, "q/o/foo-rhel9".data⟩, ⟨"B".data, "q/o/bar".data⟩] "t".data false
      (by decide)⟩

/-! ## Claim C9: unsigned tag lists are silently skipped -/

/-- C9: an entry whose registry tag list is non-empty but in which no tag
has a companion signature tag is recorded neither missing-image nor
missing-git-labels, produces no resolved entry, and a call consisting of
that entry alone completes successfully returning no resolved entry at
all. -/
theorem C9_unsigned_entry_skipped (q : QuayService) (tag : Str) (ov : Bool)
    (e : ImageEntry) (p : ParsedImage)
    (hp : parse_image_value e.value = some p)
    (ht : q.get_all_tags p.org p.repo tag ≠ [])
    (hs : ∀ t ∈ q.get_all_tags p.org p.repo tag,
      q.get_tag_details p.org p.repo (sig_tag_name t.manifest_digest) = false) :
    entry_missing_image_of q tag ov e = none ∧
    entry_missing_git_of q tag ov e = none ∧
    entry_resolved_of q tag ov e = none ∧
    fetch_latest_images_and_git_metadata q [e] tag ov
      = some (FetchResult.ok [] []) := by
  have hfind : (q.get_all_tags p.org p.repo tag).find?
      (fun t => q.get_tag_details p.org p.repo (sig_tag_name t.manifest_digest))
      = none :=
    List.find?_eq_none.mpr (fun t htm => by rw [hs t htm]; simp)
  have hstep : entry_step q tag ov e p = ⟨none, none, none, none⟩ := by
    rw [entry_step, if_neg (fun hc => ht (List.isEmpty_iff.mp hc)), hfind]
  have hso : entry_step_of q tag ov e = some (entry_step q tag ov e p) := by
    simp [entry_step_of, hp]
  refine ⟨?_, ?_, ?_, ?_⟩
  · simp [entry_missing_image_of, hso, hstep]
  · simp [entry_missing_git_of, hso, hstep]
  · simp [entry_resolved_of, hso, hstep]
  · rw [fetch_latest_images_and_git_metadata]
    have hproc : process_image_entries q tag ov [e] ⟨[], [], [], []⟩
        = some ⟨[], [], [], []⟩ := by
      rw [process_image_entries, hp]
      show process_image_entries q tag ov []
        (apply_entry_step ⟨[], [], [], []⟩ (entry_step q tag ov e p)) = _
      rw [hstep]
      rfl
    rw [hproc]
    rfl

/-- C9 witness: the theorem applied to a concrete entry under the
unsigned-tags oracle. -/
theorem C9_witness :
    parse_image_value ("q/o/ra".data : Str)
      = some ⟨"q".data, "o".data, "ra".data, "ra".data, none⟩ ∧
    quay_unsigned_tags.get_all_tags "o".data "ra".data "t".data ≠ [] ∧
    (∀ t ∈ quay_unsigned_tags.get_all_tags "o".data "ra".data "t".data,
      quay_unsigned_tags.get_tag_details "o".data "ra".data
        (sig_tag_name t.manifest_digest) = false) ∧
    fetch_latest_images_and_git_metadata quay_unsigned_tags
        [⟨"A".data, "q/o/ra".data⟩] "t".data false
      = some (FetchResult.ok [] []) :=
  ⟨by decide, by decide, by decide,
    (C9_unsigned_entry_skipped quay_unsigned_tags "t".data false
      ⟨"A".data, "q/o/ra".data⟩ ⟨"q".data, "o".data, "ra".data, "ra".data, none⟩
      (by decide) (by decide) (by decide)).2.2.2⟩

/-- C8 witness: with exactly one registry pair no error is raised, and with
an empty registry mapping an error is raised. -/
theorem C8_witness :
    ¬ (∃ msg, apply_registry_and_repo_replacements []
        [("a".data, "b".data)] [] = .error msg) ∧
    (∃ msg, apply_registry_and_repo_replacements []
        ([] : List (Str × Str)) [] = .error msg) :=
  ⟨fun hex => absurd
      ((C8_registry_mapping_cardinality [] [("a".data, "b".data)] []).mp hex)
      (by decide),
   (C8_registry_mapping_cardinality [] [] []).mpr (by decide)⟩

/-- C10 witness: the frame theorem applied to a concrete remap run with a
rewritten entry and an empty-valued entry. -/
theorem C10_witness :
    apply_registry_and_repo_replacements
        [⟨"A".data, "quay.io/a/b@s".data⟩, ⟨"B".data, []⟩]
        [("quay.io".data, "reg.io".data)] [("a/b".data, "c/d".data)]
      = .ok [⟨"A".data, "reg.io/c/d@s".data⟩, ⟨"B".data, []⟩] ∧
    ([⟨"A".data, "reg.io/c/d@s".data⟩, ⟨"B".data, []⟩] : List ImageEntry).length
      = ([⟨"A".data, "quay.io/a/b@s".data⟩, ⟨"B".data, []⟩] : List ImageEntry).length :=
  ⟨rfl,
    (C10_remap_frame [⟨"A".data, "quay.io/a/b@s".data⟩, ⟨"B".data, []⟩]
      [("quay.io".data, "reg.io".data)] [("a/b".data, "c/d".data)]
      [⟨"A".data, "reg.io/c/d@s".data⟩, ⟨"B".data, []⟩] rfl).1⟩
